import Mathlib

/-!
# Verification development for `scheduler.hpp`

A shallow embedding of the named-job scheduler: the cron-like schedule parser
(`Scheduler::parse_cron`), the job registry with its facade operations
(`cancel`, `wait`, `clear`) and the per-job dispatch loop (the worker lambda of
`schedule_job`).
-/

namespace scheduler

/-! ## Schedule parser -/

/-- Calendar record `std::tm`; `std::tm time{}` zero-initialises every component. -/
structure Tm where
  tm_sec : Int := 0
  tm_min : Int := 0
  tm_hour : Int := 0
  tm_mday : Int := 0
  tm_mon : Int := 0
  tm_year : Int := 0
  tm_wday : Int := 0
  tm_yday : Int := 0
  tm_isdst : Int := 0
deriving DecidableEq, Repr

/-- The C library test `isdigit`: the characters `0` to `9`. -/
def isdigit (c : Char) : Bool := decide (48 ≤ c.toNat) && decide (c.toNat ≤ 57)

/-- Two's-complement reduction of an integer to the 32-bit `int`. -/
def wrap_int (x : Int) : Int := (x + 2 ^ 31) % 2 ^ 32 - 2 ^ 31

/-- Largest value of the 64-bit `long`. -/
def LONG_MAX : Int := 2 ^ 63 - 1

/-- Digit accumulation of `strtol` in base ten: consumes the leading run of
digits of the text at the pointer and stops at the first other character. -/
def atoi_digits : List Char → Nat → Nat
  | [], acc => acc
  | c :: rest, acc =>
    if isdigit c then atoi_digits rest (acc * 10 + (c.toNat - 48)) else acc

/-- The call `std::atoi(p)` for a pointer `p` at a digit; the list is the content
of the buffer from `p` up to its terminating NUL. The result is
`(int) strtol(p, 0, 10)`, the value of the leading digit run, saturated at
`LONG_MAX` and cut to `int`. The white space and sign that `atoi` would skip
cannot occur, because `parse_cron` only calls it on a position that holds a
digit. -/
def atoi (p : List Char) : Int := wrap_int (min (atoi_digits p 0 : Int) LONG_MAX)

/-- The `switch(section)` of `parse_cron`: component `sect` of the record
receives `n` (the month receives `n-1`); a section outside 1..6 stores nothing. -/
def store (sect : Nat) (n : Int) (time : Tm) : Tm :=
  match sect with
  | 1 => { time with tm_sec := n }
  | 2 => { time with tm_min := n }
  | 3 => { time with tm_hour := n }
  | 4 => { time with tm_mday := n }
  | 5 => { time with tm_mon := wrap_int (n - 1) }
  | 6 => { time with tm_wday := n }
  | _ => time

/-- The `for` loop of `parse_cron` on the view `str`. The first list is the
part of the view from index `i` on; `after` is the content of the underlying
buffer behind the view, up to its terminating NUL; `sect` is the section
counter. A `*` advances the counter. A digit opens a run: the inner `while`
moves `i` to the first character after the run or to the end of the view, the
counter advances, and the `switch` stores the number. That number is
`std::atoi(s.data())`: `atoi` gets the pointer to the start of the run and not
the length of `s`, so it reads on in the buffer until a character that is not a
digit, beyond the end of the view if the run reaches it. The `i++` of the `for`
statement then steps over the character on which the inner `while` stopped.
Any other character is stepped over. The first argument bounds the number of
iterations; the length of the view is enough. -/
def parse_loop : Nat → List Char → List Char → Nat → Tm → Tm
  | 0, _, _, _, time => time
  | _, [], _, _, time => time
  | fuel + 1, c :: rest, after, sect, time =>
    if c = '*' then parse_loop fuel rest after (sect + 1) time
    else if isdigit c then
      parse_loop fuel (((c :: rest).dropWhile isdigit).drop 1) after (sect + 1)
        (store (sect + 1) (atoi ((c :: rest) ++ after)) time)
    else parse_loop fuel rest after sect time

/-- The calendar record built by `parse_cron`, before the year is filled, for
the view `str` of a buffer that goes on with `after`. -/
def parse_view (str after : String) : Tm :=
  parse_loop str.data.length str.data after.data 0 {}

/-- The calendar record built by `parse_cron` before the year is filled, for a
text that ends where its buffer ends, such as a string literal. -/
def parse_fields (str : String) : Tm := parse_view str ""

/-- The calendar record that `parse_cron` hands to `std::mktime`: the parsed
fields with `tm_year` taken from `now`, the result of `std::localtime` for the
current instant. -/
def parse_cron (str : String) (now : Tm) : Tm :=
  { parse_fields str with tm_year := now.tm_year }

/-! ### The schedule grammar, in the words of the specification -/

/-- Numeric value of a decimal integer literal. -/
def decimal (f : List Char) : Nat := f.foldl (fun acc c => acc * 10 + (c.toNat - 48)) 0

/-- One field of a schedule text: the wildcard, or a decimal integer literal
(a non-empty run of digits) whose value fits the 32-bit `int`. -/
def is_field (f : List Char) : Prop :=
  f = ['*'] ∨ (f ≠ [] ∧ (∀ c ∈ f, isdigit c = true) ∧ decimal f < 2 ^ 31)

/-- The value a field denotes for a calendar component: zero for the
wildcard, the numeric value for an integer. -/
def field_value (f : List Char) : Int := if f = ['*'] then 0 else (decimal f : Int)

/-- The value the month field denotes: zero for the wildcard, the numeric
value minus one for an integer. -/
def month_value (f : List Char) : Int := if f = ['*'] then 0 else (decimal f : Int) - 1

/-- The parser loop run on a text with a sufficient bound. -/
def parse_text (str : List Char) (sect : Nat) (time : Tm) : Tm :=
  parse_loop str.length str [] sect time

/-- What a field writes into the record when it is token number `sect`. -/
def put (f : List Char) (sect : Nat) (time : Tm) : Tm :=
  if f = ['*'] then time else store sect (decimal f : Int) time

/-- A token of a schedule text, in the words of the specification: a
wildcard, or a maximal run of digits with its numeric value. -/
inductive Token
  | wildcard
  | integer (n : Int)
deriving DecidableEq, Repr

/-- The tokens of a text from left to right, in the words of the
specification: every `*` is a token, every maximal run of digits is a token,
any other character only separates. The first argument bounds the number of
characters looked at; the length of the text is enough. -/
def tokens : Nat → List Char → List Token
  | 0, _ => []
  | _, [] => []
  | fuel + 1, c :: rest =>
    if c = '*' then .wildcard :: tokens fuel rest
    else if isdigit c then
      .integer (atoi (c :: rest)) :: tokens fuel ((c :: rest).dropWhile isdigit)
    else tokens fuel rest

/-- Assigns token number `k`, `k + 1`, ... of a list to the calendar field of
that number: an integer is stored, a wildcard leaves the field as it is. -/
def assign_tokens : List Token → Nat → Tm → Tm
  | [], _, time => time
  | .wildcard :: ts, k, time => assign_tokens ts (k + 1) time
  | .integer n :: ts, k, time => assign_tokens ts (k + 1) (store k n time)

/-- The record that the specification describes: the k-th token of the text
goes to calendar field k. -/
def spec_fields (str : String) : Tm := assign_tokens (tokens str.data.length str.data) 1 {}

/-- Whether the buffer content behind a view is empty or starts with a
character that is not a digit. -/
def no_leading_digit : List Char → Bool
  | [] => true
  | c :: _ => !isdigit c

/-- Whether somewhere in the text a `*` stands directly after a digit. -/
def star_after_digit : List Char → Bool
  | c :: d :: rest => (isdigit c && d == '*') || star_after_digit (d :: rest)
  | _ => false

/-- A reading of the local clock: Friday 30 October 2026, 09:15:00, as
`std::localtime` reports it (years since 1900, months from zero). -/
def local_now : Tm :=
  { tm_sec := 0, tm_min := 15, tm_hour := 9, tm_mday := 30, tm_mon := 9, tm_year := 126,
    tm_wday := 5, tm_yday := 302, tm_isdst := 0 }

/-! ## Job registry and facade -/

/-- The `std::thread` handle of a job, as far as the facade observes it:
whether it is joinable. A handle is joinable from the moment its thread is
started until it is joined or detached; a default-constructed handle is not. -/
structure Thread where
  joinable : Bool
deriving DecidableEq, Repr

/-- The record `Job`. Instants are ticks of the system clock. -/
structure Job where
  name : String
  created_at : Int
  end_point : Int
  thread : Thread
  should_run : Bool := true
  should_loop : Bool
deriving DecidableEq, Repr

/-- The registry `std::map<std::string_view, Job>`: the entries in ascending
order of their keys. -/
abbrev Jobs := List (String × Job)

/-- Exceptions of the standard library that the facade can raise. -/
inductive Exception
  | system_error
  | out_of_range
deriving DecidableEq, Repr

/-- How a call of a facade operation ends: it returns a value, an exception
leaves it, `std::terminate` ends the program, or the language leaves the
behaviour undefined. -/
inductive Result (α : Type)
  | returned (a : α)
  | threw (e : Exception)
  | terminated
  | undefined
deriving DecidableEq, Repr

/-- Membership test `jobs.contains(key)`. -/
def map_contains (jobs : Jobs) (key : String) : Bool := jobs.any (fun e => e.1 == key)

/-- Lookup `jobs.at(key)`; `none` stands for `std::out_of_range`. -/
def map_at : Jobs → String → Option Job
  | [], _ => none
  | e :: rest, key => if e.1 = key then some e.2 else map_at rest key

/-- Removal `jobs.erase(key)`. -/
def map_erase (jobs : Jobs) (key : String) : Jobs := jobs.filter (fun e => e.1 ≠ key)

/-- The call `thread.detach()`: a joinable handle gives up its thread and is no
longer joinable; on a handle that is not joinable the call throws
`std::system_error`, here `none`. -/
def detach (t : Thread) : Option Thread := if t.joinable then some ⟨false⟩ else none

/-- The operation `Scheduler::cancel`. An absent name returns at once. Otherwise
the job's handle is detached and the entry erased; when `detach` throws, the
exception leaves `cancel` before the `erase` and the registry is as it was. -/
def cancel (jobs : Jobs) (job_name : String) : Result Unit × Jobs :=
  if ¬ map_contains jobs job_name then (.returned (), jobs)
  else
    match map_at jobs job_name with
    | none => (.threw .out_of_range, jobs)
    | some job =>
      match detach job.thread with
      | none => (.threw .system_error, jobs)
      | some _ => (.returned (), map_erase jobs job_name)

/-- The operation `Scheduler::wait`, on the registry, for the case that every
`join` returns: each job in turn gets `should_loop` cleared when `stop_loop` is
set, and a joinable handle is joined, after which it is no longer joinable. The
entries stay in the registry. -/
def wait (jobs : Jobs) (stop_loop : Bool) : Jobs :=
  jobs.map (fun e =>
    (e.1, { e.2 with
      should_loop := if stop_loop then false else e.2.should_loop,
      thread := if e.2.thread.joinable then ⟨false⟩ else e.2.thread }))

/-- Iterator `jobs.begin()`: the key of the first entry, `none` for `end()`. -/
def map_begin (jobs : Jobs) : Option String := jobs.head?.map (fun e => e.1)

/-- Iterator increment `++it` for a valid iterator at `key`: the key of the
entry that follows it, `none` for `end()`. -/
def map_next : Jobs → String → Option String
  | [], _ => none
  | e :: rest, key => if e.1 = key then map_begin rest else map_next rest key

/-- The range-`for` of `Scheduler::clear`, `for(auto &[name, _] : jobs) cancel(name);`
with the iterator `it` held as the key of its entry. Each round calls `cancel`
on the key at `it` and then increments `it`. An iterator is valid as long as
its entry is in the map; `erase` invalidates the iterators of the erased entry,
and incrementing an invalidated iterator is undefined. The first argument
bounds the number of rounds. -/
def clear_loop : Nat → Option String → Jobs → Result Unit × Jobs
  | 0, _, jobs => (.returned (), jobs)
  | _ + 1, none, jobs => (.returned (), jobs)
  | fuel + 1, some name, jobs =>
    match cancel jobs name with
    | (.returned (), jobs1) =>
      if map_contains jobs1 name then clear_loop fuel (map_next jobs1 name) jobs1
      else (.undefined, jobs1)
    | (.threw e, jobs1) => (.threw e, jobs1)
    | (.terminated, jobs1) => (.terminated, jobs1)
    | (.undefined, jobs1) => (.undefined, jobs1)

/-- The operation `Scheduler::clear`. -/
def clear (jobs : Jobs) : Result Unit × Jobs :=
  clear_loop (jobs.length + 1) (map_begin jobs) jobs

/-- The record that the designated initialisers of `schedule_job` describe for a
job: `.name`, `.end_point`, `.thread` and `.should_loop` as given, `created_at`
and `should_run` from their default member initialisers. -/
def new_job (now : Int) (loop : Bool) (job_name : String) (duration : Int) (t : Thread) : Job :=
  { name := job_name, created_at := now, end_point := now + duration, thread := t,
    should_run := true, should_loop := loop }

/-! ## Dispatch loop of a worker -/

/-- Control point of the worker lambda of `schedule_job`. -/
inductive Pc
  | sleeping
  | checking
  | gate
  | invoked
  | exited
deriving DecidableEq, Repr

/-- What the worker's reads of the shared state return during one step:
`contains` is the result of `_jobs.contains(job_name)`, `should_run` and
`should_loop` are the flags as read through the reference `job`. -/
structure View where
  contains : Bool
  should_run : Bool
  should_loop : Bool
deriving DecidableEq, Repr

/-- The view of a worker whose job is registered: the flags are those of the
registry entry. -/
def view_of (jobs : Jobs) (job_name : String) : Option View :=
  (map_at jobs job_name).map (fun job => ⟨true, job.should_run, job.should_loop⟩)

/-- One step of the worker lambda; `loop` is the captured repeat flag. The
result is the next control point and whether the step called the user function.
* `sleeping`: `sleep_for(duration)` ends.
* `checking`: `if(!_jobs.contains(job_name)) return;` then the reference
  `job` is taken.
* `gate`: `while(!job.should_run) yield();` followed by `fn(a...)`; a step
  that reads `false` yields and stays, a step that reads `true` leaves the
  `while` and calls the function.
* `invoked`: `if(!job.should_loop) return;` and the test `while(loop)`. -/
def step (loop : Bool) (v : View) : Pc → Pc × Bool
  | .sleeping => (.checking, false)
  | .checking => if v.contains then (.gate, false) else (.exited, false)
  | .gate => if v.should_run then (.invoked, true) else (.gate, false)
  | .invoked => if ¬ v.should_loop then (.exited, false)
                else if loop then (.sleeping, false) else (.exited, false)
  | .exited => (.exited, false)

/-- Runs the worker for one step per view of the list, from control point
`pc`; returns the control point reached and the number of calls of the user
function. -/
def run (loop : Bool) : List View → Pc → Pc × Nat
  | [], pc => (pc, 0)
  | v :: vs, pc =>
    let r := run loop vs (step loop v pc).1
    (r.1, (if (step loop v pc).2 then 1 else 0) + r.2)

/-- One step of the worker against the registry as it is at that step. The
worker holds the reference `job` to its registry entry from line 116 on, that
is at the control points `gate` and `invoked`, and reads the flags through it.
While the entry is registered the step is `step` on the flags of the entry.
Once `erase` has destroyed the entry the reference dangles, and the read of
`job.should_run` or `job.should_loop` through it is undefined. At the other
control points nothing is read through `job`; the test at `checking` is
`_jobs.contains(job_name)`. -/
def worker_step (loop : Bool) (job_name : String) (jobs : Jobs) (pc : Pc) : Result (Pc × Bool) :=
  match view_of jobs job_name with
  | some v => .returned (step loop v pc)
  | none =>
    match pc with
    | .gate => .undefined
    | .invoked => .undefined
    | .sleeping => .returned (step loop ⟨false, false, false⟩ .sleeping)
    | .checking => .returned (step loop ⟨false, false, false⟩ .checking)
    | .exited => .returned (step loop ⟨false, false, false⟩ .exited)

/-- Runs the worker against a list of registries, one step per registry, each
the state of the registry when the worker takes that step; returns the control
point reached and the number of calls of the user function, or how the run
ended otherwise. -/
def worker_run (loop : Bool) (job_name : String) : List Jobs → Pc → Result (Pc × Nat)
  | [], pc => .returned (pc, 0)
  | jobs :: rest, pc =>
    match worker_step loop job_name jobs pc with
    | .returned (pc1, fired) =>
      match worker_run loop job_name rest pc1 with
      | .returned (pc2, n) => .returned (pc2, (if fired then 1 else 0) + n)
      | .threw e => .threw e
      | .terminated => .terminated
      | .undefined => .undefined
    | .threw e => .threw e
    | .terminated => .terminated
    | .undefined => .undefined

/-- A registry with the repeating job `A`, its worker running and its
`should_run` flag set to `false`. -/
def jobs_paused : Jobs := [("A", { new_job 0 true "A" 30 ⟨true⟩ with should_run := false })]

/-- Two calls of `cancel` in a row; an exception that leaves the first call
leaves the sequence. -/
def cancel_twice (jobs : Jobs) (job_name : String) : Result Unit × Jobs :=
  match cancel jobs job_name with
  | (.returned (), jobs1) => cancel jobs1 job_name
  | r => r

/-- A registry, as the public member `jobs` can hold it, with the one-shot job
`A` whose worker is running. -/
def jobs_registered : Jobs := [("A", new_job 0 false "A" 100 ⟨true⟩)]

/-- The registry `jobs_registered` after `wait()` has joined the worker of `A`. -/
def jobs_joined : Jobs := wait jobs_registered false

/-- A registry with the two jobs `A` and `B`, both workers running. -/
def jobs_two : Jobs :=
  [("A", new_job 0 false "A" 100 ⟨true⟩), ("B", new_job 0 true "B" 50 ⟨true⟩)]

/-! ### Lemmas on the parser -/

theorem wrap_int_of_fits (x : Int) (h1 : -(2 ^ 31) ≤ x) (h2 : x < 2 ^ 31) : wrap_int x = x := by
  unfold wrap_int
  omega

theorem atoi_digits_append (f : List Char) (hf : ∀ c ∈ f, isdigit c = true) (tl : List Char)
    (acc : Nat) :
    atoi_digits (f ++ tl) acc
      = atoi_digits tl (f.foldl (fun a c => a * 10 + (c.toNat - 48)) acc) := by
  induction f generalizing acc with
  | nil => rfl
  | cons c f ih =>
    have hc : isdigit c = true := hf c (List.mem_cons_self _ _)
    simp only [List.cons_append, atoi_digits, hc, if_true, List.foldl_cons]
    exact ih (fun d hd => hf d (List.mem_cons_of_mem _ hd)) _

theorem dropWhile_digits_append (f : List Char) (hf : ∀ c ∈ f, isdigit c = true)
    (tl : List Char) : (f ++ tl).dropWhile isdigit = tl.dropWhile isdigit := by
  induction f with
  | nil => rfl
  | cons c f ih =>
    have hc : isdigit c = true := hf c (List.mem_cons_self _ _)
    simp only [List.cons_append, List.dropWhile_cons, hc, if_true]
    exact ih (fun d hd => hf d (List.mem_cons_of_mem _ hd))

theorem length_drop_dropWhile_le (c : Char) (rest : List Char) :
    (((c :: rest).dropWhile isdigit).drop 1).length ≤ rest.length := by
  have h := (List.dropWhile_sublist isdigit (l := c :: rest)).length_le
  simp only [List.length_drop, List.length_cons] at *
  omega

/-- Any bound at least the length of the text gives the same result. -/
theorem parse_loop_fuel (fuel : Nat) (after : List Char) :
    ∀ (fuel' : Nat) (str : List Char) (sect : Nat) (time : Tm),
      str.length ≤ fuel → str.length ≤ fuel' →
      parse_loop fuel str after sect time = parse_loop fuel' str after sect time := by
  induction fuel with
  | zero =>
    intro fuel' str sect time h _
    have : str = [] := List.length_eq_zero.mp (Nat.le_zero.mp h)
    subst this
    cases fuel' <;> rfl
  | succ n ih =>
    intro fuel' str sect time h h'
    cases str with
    | nil => cases fuel' <;> rfl
    | cons c rest =>
      cases fuel' with
      | zero => simp at h'
      | succ m =>
        have hl := length_drop_dropWhile_le c rest
        simp only [List.length_cons, Nat.succ_le_succ_iff] at h h'
        simp only [parse_loop]
        split_ifs
        · exact ih m rest _ _ h h'
        · exact ih m _ _ _ (le_trans hl h) (le_trans hl h')
        · exact ih m rest _ _ h h'

theorem parse_text_nil (sect : Nat) (time : Tm) : parse_text [] sect time = time := rfl

theorem parse_text_star (rest : List Char) (sect : Nat) (time : Tm) :
    parse_text ('*' :: rest) sect time = parse_text rest (sect + 1) time := by
  simp [parse_text, parse_loop]

theorem parse_text_space (rest : List Char) (sect : Nat) (time : Tm) :
    parse_text (' ' :: rest) sect time = parse_text rest sect time := by
  have h1 : ¬ (' ' = '*') := by decide
  have h2 : isdigit ' ' = false := by decide
  simp [parse_text, parse_loop, h1, h2]

theorem parse_text_digit (c : Char) (rest : List Char) (sect : Nat) (time : Tm)
    (hc : isdigit c = true) :
    parse_text (c :: rest) sect time
      = parse_text (((c :: rest).dropWhile isdigit).drop 1) (sect + 1)
          (store (sect + 1) (atoi (c :: rest)) time) := by
  have h1 : ¬ (c = '*') := by
    intro h
    subst h
    revert hc
    decide
  unfold parse_text
  simp only [List.length_cons, parse_loop, h1, hc, if_true, if_false, List.append_nil]
  exact parse_loop_fuel _ _ _ _ _ _ (length_drop_dropWhile_le c rest) (le_refl _)

/-- A field followed by the end of the text or by a space is consumed together
with that space; it advances the section counter once. -/
theorem parse_text_field (f : List Char) (hf : is_field f) (tl : List Char)
    (htl : tl = [] ∨ ∃ rest, tl = ' ' :: rest) (sect : Nat) (time : Tm) :
    parse_text (f ++ tl) sect time = parse_text (tl.drop 1) (sect + 1) (put f (sect + 1) time) := by
  have htl' : tl.dropWhile isdigit = tl := by
    rcases htl with h | ⟨rest, h⟩
    · subst h; rfl
    · subst h
      have h2 : isdigit ' ' = false := by decide
      simp [List.dropWhile_cons, h2]
  have hat : atoi_digits tl (decimal f) = decimal f := by
    rcases htl with h | ⟨rest, h⟩
    · subst h; rfl
    · subst h
      have h2 : isdigit ' ' = false := by decide
      simp [atoi_digits, h2]
  rcases hf with hstar | ⟨hne, hdig, hval⟩
  · subst hstar
    simp only [put, if_true, List.cons_append, List.nil_append, parse_text_star]
    rcases htl with h | ⟨rest, h⟩
    · subst h; rfl
    · subst h
      simp [parse_text_space]
  · have hns : f ≠ ['*'] := by
      intro h
      subst h
      have := hdig '*' (List.mem_singleton.mpr rfl)
      revert this
      decide
    obtain ⟨c, f', rfl⟩ := List.exists_cons_of_ne_nil hne
    have hc : isdigit c = true := hdig c (List.mem_cons_self _ _)
    have hato : atoi (c :: f' ++ tl) = (decimal (c :: f') : Int) := by
      unfold atoi
      rw [atoi_digits_append (c :: f') hdig tl 0]
      have : atoi_digits tl (List.foldl (fun a c => a * 10 + (c.toNat - 48)) 0 (c :: f'))
          = decimal (c :: f') := hat
      rw [this]
      have h63 : ((decimal (c :: f') : Nat) : Int) ≤ LONG_MAX := by
        unfold LONG_MAX
        omega
      rw [min_eq_left h63]
      apply wrap_int_of_fits <;> omega
    rw [List.cons_append, parse_text_digit c (f' ++ tl) sect time hc]
    rw [← List.cons_append, dropWhile_digits_append (c :: f') hdig tl, htl', hato]
    simp only [put, hns, if_false]

theorem parse_fields_eq (l : List Char) : parse_fields (String.mk l) = parse_text l 0 {} := rfl

/-- For a text that ends with its buffer and is made of six fields separated by
single spaces, each field the wildcard or a decimal integer literal that fits
`int`, the record built by `parse_cron` before the year is filled holds the
numeric values of fields 1, 2, 3, 4 and 6 in second, minute, hour, day-of-month
and day-of-week, the value of field 5 minus one in month, and zero in every
component whose field is the wildcard. -/
theorem parse_fields_six_fields (f1 f2 f3 f4 f5 f6 : List Char)
    (h1 : is_field f1) (h2 : is_field f2) (h3 : is_field f3)
    (h4 : is_field f4) (h5 : is_field f5) (h6 : is_field f6) :
    parse_fields
        (String.mk (f1 ++ ' ' :: (f2 ++ ' ' :: (f3 ++ ' ' :: (f4 ++ ' ' :: (f5 ++ ' ' :: f6))))))
      = { tm_sec := field_value f1, tm_min := field_value f2, tm_hour := field_value f3,
          tm_mday := field_value f4, tm_mon := month_value f5, tm_wday := field_value f6,
          tm_year := 0, tm_yday := 0, tm_isdst := 0 } := by
  rw [parse_fields_eq]
  rw [parse_text_field f1 h1 _ (Or.inr ⟨_, rfl⟩), List.drop_one, List.tail_cons]
  rw [parse_text_field f2 h2 _ (Or.inr ⟨_, rfl⟩), List.drop_one, List.tail_cons]
  rw [parse_text_field f3 h3 _ (Or.inr ⟨_, rfl⟩), List.drop_one, List.tail_cons]
  rw [parse_text_field f4 h4 _ (Or.inr ⟨_, rfl⟩), List.drop_one, List.tail_cons]
  rw [parse_text_field f5 h5 _ (Or.inr ⟨_, rfl⟩), List.drop_one, List.tail_cons]
  have h := parse_text_field f6 h6 [] (Or.inl rfl) 5 
    (put f5 5 (put f4 4 (put f3 3 (put f2 2 (put f1 1 {})))))
  rw [List.append_nil] at h
  rw [h]
  simp only [List.drop_nil, parse_text_nil]
  have hm : wrap_int ((decimal f5 : Int) - 1) = (decimal f5 : Int) - 1 := by
    rcases h5 with h | ⟨_, _, hv⟩
    · subst h; decide
    · apply wrap_int_of_fits <;> omega
  simp only [put, store, field_value, month_value, hm]
  split_ifs <;> rfl

/-! ### The buffer behind the view -/

theorem atoi_digits_append_sep (after : List Char) (h : no_leading_digit after = true)
    (p : List Char) : ∀ acc : Nat, atoi_digits (p ++ after) acc = atoi_digits p acc := by
  induction p with
  | nil =>
    intro acc
    cases after with
    | nil => rfl
    | cons c rest =>
      have hc : isdigit c = false := by simpa [no_leading_digit] using h
      simp [atoi_digits, hc]
  | cons c p ih =>
    intro acc
    rw [List.cons_append]
    simp only [atoi_digits]
    rw [ih]

/-- When the buffer behind the view does not go on with a digit, the parser
reads the view as it reads a text that ends with its buffer. -/
theorem parse_loop_after (after : List Char) (h : no_leading_digit after = true) (fuel : Nat) :
    ∀ (str : List Char) (sect : Nat) (time : Tm),
      parse_loop fuel str after sect time = parse_loop fuel str [] sect time := by
  induction fuel with
  | zero => intro str sect time; simp [parse_loop]
  | succ n ih =>
    intro str sect time
    cases str with
    | nil => simp [parse_loop]
    | cons c rest =>
      simp only [parse_loop, ih, atoi, atoi_digits_append_sep after h, List.append_nil]

theorem parse_view_eq_parse_fields (str after : String)
    (h : no_leading_digit after.data = true) : parse_view str after = parse_fields str :=
  parse_loop_after after.data h str.data.length str.data 0 {}

/-! ### The parser against the token rule of the specification -/

theorem tokens_fuel (fuel : Nat) :
    ∀ (fuel' : Nat) (str : List Char), str.length ≤ fuel → str.length ≤ fuel' →
      tokens fuel str = tokens fuel' str := by
  induction fuel with
  | zero =>
    intro fuel' str h _
    have : str = [] := List.length_eq_zero.mp (Nat.le_zero.mp h)
    subst this
    cases fuel' <;> rfl
  | succ n ih =>
    intro fuel' str h h'
    cases str with
    | nil => cases fuel' <;> rfl
    | cons c rest =>
      cases fuel' with
      | zero => simp at h'
      | succ m =>
        simp only [List.length_cons, Nat.succ_le_succ_iff] at h h'
        simp only [tokens]
        split_ifs with h1 h2
        · rw [ih m rest h h']
        · have hl : ((c :: rest).dropWhile isdigit).length ≤ rest.length := by
            rw [List.dropWhile_cons, if_pos h2]
            exact (List.dropWhile_sublist isdigit).length_le
          rw [ih m _ (le_trans hl h) (le_trans hl h')]
        · exact ih m rest h h'

theorem star_after_digit_tail (c : Char) (rest : List Char)
    (h : star_after_digit (c :: rest) = false) : star_after_digit rest = false := by
  cases rest with
  | nil => rfl
  | cons d r =>
    simp only [star_after_digit, Bool.or_eq_false_iff] at h
    exact h.2

/-- After a run of digits in a text without a `*` directly after a digit, the
text ends or goes on with a separator. -/
theorem dropWhile_digits_sep (rest : List Char) :
    ∀ c : Char, isdigit c = true → star_after_digit (c :: rest) = false →
      (c :: rest).dropWhile isdigit = [] ∨
        ∃ d r, (c :: rest).dropWhile isdigit = d :: r ∧ isdigit d = false ∧ d ≠ '*' ∧
          star_after_digit r = false := by
  induction rest with
  | nil =>
    intro c hc _
    left
    simp [List.dropWhile_cons, hc]
  | cons d r ih =>
    intro c hc h
    have ht := star_after_digit_tail c (d :: r) h
    rw [List.dropWhile_cons, if_pos hc]
    cases hd : isdigit d with
    | true => exact ih d hd ht
    | false =>
      right
      refine ⟨d, r, by simp [List.dropWhile_cons, hd], hd, ?_, star_after_digit_tail d r ht⟩
      intro hstar
      subst hstar
      simp [star_after_digit, hc] at h

theorem parse_loop_eq_assign_tokens (n : Nat) :
    ∀ (str : List Char), str.length ≤ n → star_after_digit str = false →
      ∀ (sect : Nat) (time : Tm),
        parse_loop n str [] sect time = assign_tokens (tokens n str) (sect + 1) time := by
  induction n with
  | zero =>
    intro str h _ sect time
    have : str = [] := List.length_eq_zero.mp (Nat.le_zero.mp h)
    subst this
    rfl
  | succ n ih =>
    intro str h hs sect time
    cases str with
    | nil => rfl
    | cons c rest =>
      simp only [List.length_cons, Nat.succ_le_succ_iff] at h
      have ht := star_after_digit_tail c rest hs
      simp only [parse_loop, tokens, List.append_nil]
      split_ifs with h1 h2
      · rw [ih rest h ht]
        rfl
      · have hl := length_drop_dropWhile_le c rest
        have hskip : tokens n ((c :: rest).dropWhile isdigit)
            = tokens n (((c :: rest).dropWhile isdigit).drop 1) := by
          rcases dropWhile_digits_sep rest c h2 hs with hD | ⟨d, r, hD, hd, hstar, _⟩
          · rw [hD]; rfl
          · rw [hD] at hl ⊢
            simp only [List.drop_one, List.tail_cons] at hl ⊢
            cases n with
            | zero =>
              have : r = [] := List.length_eq_zero.mp (Nat.le_zero.mp (le_trans hl h))
              subst this
              rfl
            | succ m =>
              have hlen : ((c :: rest).dropWhile isdigit).length ≤ rest.length := by
                rw [List.dropWhile_cons, if_pos h2]
                exact (List.dropWhile_sublist isdigit).length_le
              rw [hD, List.length_cons] at hlen
              have hrm : r.length ≤ m := by omega
              simp only [tokens, hstar, hd, if_false, Bool.false_eq_true]
              exact tokens_fuel m (m + 1) r hrm (by omega)
        have hsd : star_after_digit (((c :: rest).dropWhile isdigit).drop 1) = false := by
          rcases dropWhile_digits_sep rest c h2 hs with hD | ⟨d, r, hD, _, _, hr⟩
          · rw [hD]; rfl
          · rw [hD]; simpa using hr
        rw [ih _ (le_trans hl h) hsd, hskip]
        rfl
      · exact ih rest h ht sect time

/-- On every text in which no `*` stands directly after a digit, the parser
follows the token rule of the specification: the k-th token goes to calendar
field k. -/
theorem parse_fields_eq_spec_fields (str : String) (h : star_after_digit str.data = false) :
    parse_fields str = spec_fields str :=
  parse_loop_eq_assign_tokens str.data.length str.data (le_refl _) h 0 {}

/-! ### Lemmas on the registry -/

theorem map_contains_cons (e : String × Job) (rest : Jobs) (key : String) :
    map_contains (e :: rest) key = (e.1 == key || map_contains rest key) := by
  simp [map_contains]

theorem map_contains_erase (jobs : Jobs) (key : String) :
    map_contains (map_erase jobs key) key = false := by
  simp [map_contains, map_erase]

theorem map_at_of_contains (jobs : Jobs) (key : String) (h : map_contains jobs key = true) :
    ∃ job, map_at jobs key = some job := by
  induction jobs with
  | nil => simp [map_contains] at h
  | cons e rest ih =>
    by_cases he : e.1 = key
    · exact ⟨e.2, by simp [map_at, he]⟩
    · have : map_contains rest key = true := by
        rw [map_contains_cons] at h
        simpa [he] using h
      obtain ⟨job, hj⟩ := ih this
      exact ⟨job, by simp [map_at, he, hj]⟩

theorem map_at_erase_ne (jobs : Jobs) (key other : String) (h : other ≠ key) :
    map_at (map_erase jobs key) other = map_at jobs other := by
  induction jobs with
  | nil => rfl
  | cons e rest ih =>
    by_cases he : e.1 = key
    · have hne : ¬ e.1 = other := by
        intro h2
        exact h (h2.symm.trans he)
      have : map_erase (e :: rest) key = map_erase rest key := by
        simp [map_erase, List.filter_cons, he]
      rw [this, ih]
      simp [map_at, hne]
    · have : map_erase (e :: rest) key = e :: map_erase rest key := by
        simp [map_erase, List.filter_cons, he]
      rw [this]
      simp only [map_at, ih]

theorem map_erase_of_not_contains (jobs : Jobs) (key : String)
    (h : map_contains jobs key = false) : map_erase jobs key = jobs := by
  induction jobs with
  | nil => rfl
  | cons e rest ih =>
    rw [map_contains_cons] at h
    simp only [Bool.or_eq_false_iff, beq_eq_false_iff_ne, ne_eq] at h
    have : map_erase (e :: rest) key = e :: map_erase rest key := by
      simp [map_erase, List.filter_cons, h.1]
    rw [this, ih h.2]

/-- The three ways a call of `cancel` can go. -/
theorem cancel_cases (jobs : Jobs) (job_name : String) :
    (map_contains jobs job_name = false ∧ cancel jobs job_name = (.returned (), jobs)) ∨
    (∃ job, map_contains jobs job_name = true ∧ map_at jobs job_name = some job ∧
      job.thread.joinable = true ∧
      cancel jobs job_name = (.returned (), map_erase jobs job_name)) ∨
    (∃ job, map_contains jobs job_name = true ∧ map_at jobs job_name = some job ∧
      job.thread.joinable = false ∧
      cancel jobs job_name = (.threw .system_error, jobs)) := by
  cases hc : map_contains jobs job_name with
  | false => exact Or.inl ⟨rfl, by simp [cancel, hc]⟩
  | true =>
    obtain ⟨job, hj⟩ := map_at_of_contains jobs job_name hc
    cases hjn : job.thread.joinable with
    | true => exact Or.inr (Or.inl ⟨job, rfl, hj, hjn, by simp [cancel, hc, hj, detach, hjn]⟩)
    | false => exact Or.inr (Or.inr ⟨job, rfl, hj, hjn, by simp [cancel, hc, hj, detach, hjn]⟩)

/-- Entries under other names are never touched by `cancel`. -/
theorem cancel_frame (jobs : Jobs) (job_name other : String) (h : other ≠ job_name) :
    map_at (cancel jobs job_name).2 other = map_at jobs other := by
  rcases cancel_cases jobs job_name with ⟨_, hc⟩ | ⟨job, _, _, _, hc⟩ | ⟨job, _, _, _, hc⟩
  · rw [hc]
  · rw [hc]; exact map_at_erase_ne jobs job_name other h
  · rw [hc]

/-- When the name is absent or its worker handle is joinable, `cancel` returns
and the name is no longer registered. -/
theorem cancel_removes_joinable (jobs : Jobs) (job_name : String)
    (h : ∀ job, map_at jobs job_name = some job → job.thread.joinable = true) :
    (cancel jobs job_name).1 = .returned () ∧
      map_contains (cancel jobs job_name).2 job_name = false := by
  rcases cancel_cases jobs job_name with ⟨ha, hc⟩ | ⟨job, _, _, _, hc⟩ | ⟨job, _, hj, hn, _⟩
  · rw [hc]; exact ⟨rfl, ha⟩
  · rw [hc]; exact ⟨rfl, map_contains_erase jobs job_name⟩
  · rw [h job hj] at hn
    cases hn

theorem clear_cons_joinable (key : String) (job : Job) (rest : Jobs)
    (h : job.thread.joinable = true) :
    clear ((key, job) :: rest) = (.undefined, map_erase ((key, job) :: rest) key) := by
  have hc : map_contains ((key, job) :: rest) key = true := by simp [map_contains]
  have ha : map_at ((key, job) :: rest) key = some job := by simp [map_at]
  have hcan : cancel ((key, job) :: rest) key
      = (.returned (), map_erase ((key, job) :: rest) key) := by
    simp [cancel, hc, ha, detach, h]
  simp only [clear, map_begin, List.head?_cons, Option.map_some', List.length_cons, clear_loop,
    hcan, map_contains_erase]
  rfl

theorem clear_cons_not_joinable (key : String) (job : Job) (rest : Jobs)
    (h : job.thread.joinable = false) :
    clear ((key, job) :: rest) = (.threw .system_error, (key, job) :: rest) := by
  have hc : map_contains ((key, job) :: rest) key = true := by simp [map_contains]
  have ha : map_at ((key, job) :: rest) key = some job := by simp [map_at]
  have hcan : cancel ((key, job) :: rest) key = (.threw .system_error, (key, job) :: rest) := by
    simp [cancel, hc, ha, detach, h]
  simp only [clear, map_begin, List.head?_cons, Option.map_some', List.length_cons, clear_loop,
    hcan]

theorem clear_nil : clear [] = (.returned (), []) := rfl

/-! ### Claims on the registry -/

/-- C1: `cancel` does not remove a job whose worker handle is no longer
joinable. On the registry with the one-shot job `A` after `wait()` has joined
its worker, the call `cancel("A")` ends with `std::system_error` thrown by
`detach`, and the registry still contains `A`. -/
theorem cancel_after_wait_keeps_job :
    cancel jobs_joined "A" = (.threw .system_error, jobs_joined) ∧
      map_contains (cancel jobs_joined "A").2 "A" = true := by
  decide

/-- C2: `cancel` is idempotent. Two calls in a row end as one call does and
leave the registry that one call leaves, and a call for a name that the
registry does not contain returns with the registry unchanged. -/
theorem cancel_idempotent (jobs : Jobs) (job_name : String) :
    cancel_twice jobs job_name = cancel jobs job_name ∧
      cancel (cancel jobs job_name).2 job_name = cancel jobs job_name ∧
      (map_contains jobs job_name = false → cancel jobs job_name = (.returned (), jobs)) := by
  have habs : ∀ js : Jobs, map_contains js job_name = false →
      cancel js job_name = (.returned (), js) := by
    intro js h
    simp [cancel, h]
  refine ⟨?_, ?_, habs jobs⟩
  · rcases cancel_cases jobs job_name with ⟨_, hc⟩ | ⟨job, _, _, _, hc⟩ | ⟨job, _, _, _, hc⟩
    · simp only [cancel_twice, hc]
    · simp only [cancel_twice, hc]
      exact habs _ (map_contains_erase jobs job_name)
    · simp only [cancel_twice, hc]
  · rcases cancel_cases jobs job_name with ⟨_, hc⟩ | ⟨job, _, _, _, hc⟩ | ⟨job, _, _, _, hc⟩
    · rw [hc]; exact hc
    · rw [hc]; exact habs _ (map_contains_erase jobs job_name)
    · rw [hc]; exact hc

/-- Witness of C2 on the registry with the running job `A`, for the absent name `B`. -/
theorem cancel_idempotent_witness :
    map_contains jobs_registered "B" = false ∧
      cancel jobs_registered "B" = (.returned (), jobs_registered) :=
  ⟨by decide, (cancel_idempotent jobs_registered "B").2.2 (by decide)⟩

/-- C3: `clear` does not empty a registry that holds a job. On the registry
with the single running job `A` the loop erases `A` and then increments the
iterator that the erasure invalidated; on the registry with the jobs `A` and
`B` the same happens after the first round, with `B` still registered. Only
the empty registry is cleared by a call that returns. -/
theorem clear_one_job_undefined :
    clear jobs_registered = (.undefined, []) ∧
      (clear jobs_two).1 = .undefined ∧ map_contains (clear jobs_two).2 "B" = true ∧
      clear [] = (.returned (), []) := by
  decide

/-! ### Claims on the parser -/

/-- The six-field rule on the text `0 30 14 * 12 *`. -/
theorem parse_fields_six_fields_example :
    is_field ['0'] ∧ is_field ['3', '0'] ∧ is_field ['1', '4'] ∧ is_field ['*'] ∧
      is_field ['1', '2'] ∧
      parse_fields "0 30 14 * 12 *"
        = { tm_sec := 0, tm_min := 30, tm_hour := 14, tm_mday := 0, tm_mon := 11,
            tm_wday := 0 } :=
  ⟨by unfold is_field; decide, by unfold is_field; decide, by unfold is_field; decide,
    Or.inl rfl, by unfold is_field; decide,
    parse_fields_six_fields ['0'] ['3', '0'] ['1', '4'] ['*'] ['1', '2'] ['*']
      (by unfold is_field; decide) (by unfold is_field; decide) (by unfold is_field; decide)
      (Or.inl rfl) (by unfold is_field; decide) (Or.inl rfl)⟩

/-- C5: a number that ends the view is read beyond it. For the view
`1 2 3 4 5 6`, six fields separated by single spaces, over a buffer that goes
on with `7`, the day-of-week of the record is 67 and not the value 6 of the
sixth field, because `atoi` reads from the start of the run to the first
character of the buffer that is not a digit; the same text at the end of its
buffer gives 6. -/
theorem parse_view_reads_past_view :
    parse_view "1 2 3 4 5 6" "7"
        = { tm_sec := 1, tm_min := 2, tm_hour := 3, tm_mday := 4, tm_mon := 4, tm_wday := 67 } ∧
      field_value ['6'] = 6 ∧ is_field ['6'] ∧
      parse_fields "1 2 3 4 5 6"
        = { tm_sec := 1, tm_min := 2, tm_hour := 3, tm_mday := 4, tm_mon := 4, tm_wday := 6 } := by
  refine ⟨by decide, by decide, ?_, by decide⟩
  unfold is_field
  decide

/-- The record for `0 30 14 * * *` does not depend on the buffer behind the
view: every number of the text is followed by a space inside the view. -/
theorem parse_view_daily (after : String) :
    parse_view "0 30 14 * * *" after = parse_fields "0 30 14 * * *" := by
  have h0 : isdigit '0' = true := by decide
  have h1 : isdigit '1' = true := by decide
  have h3 : isdigit '3' = true := by decide
  have h4 : isdigit '4' = true := by decide
  have hs : isdigit ' ' = false := by decide
  have hf : parse_fields "0 30 14 * * *" = { tm_min := 30, tm_hour := 14 } := by decide
  rw [hf]
  simp [parse_view, parse_loop, atoi, atoi_digits, store, List.dropWhile, h0, h1, h3, h4, hs,
    wrap_int, LONG_MAX]

/-- C6, as stated, fails: on 30 October 2026 the record that `parse_cron` builds
from `0 30 14 * * *` does not carry the day-of-month and month of the current
local date. -/
theorem parse_cron_daily_not_today :
    ¬ ((parse_cron "0 30 14 * * *" local_now).tm_hour = 14 ∧
        (parse_cron "0 30 14 * * *" local_now).tm_min = 30 ∧
        (parse_cron "0 30 14 * * *" local_now).tm_sec = 0 ∧
        (parse_cron "0 30 14 * * *" local_now).tm_year = local_now.tm_year ∧
        (parse_cron "0 30 14 * * *" local_now).tm_mday = local_now.tm_mday ∧
        (parse_cron "0 30 14 * * *" local_now).tm_mon = local_now.tm_mon) := by
  decide

/-- C6, amended: for every reading `now` of the local clock, the record that
`parse_cron` hands to the calendar-to-instant conversion for `0 30 14 * * *` has
hour 14, minute 30, second 0 and the current local year, and its day-of-month,
month and day-of-week are the zero that the wildcards leave. -/
theorem parse_cron_daily (now : Tm) :
    parse_cron "0 30 14 * * *" now
      = { tm_sec := 0, tm_min := 30, tm_hour := 14, tm_mday := 0, tm_mon := 0,
          tm_year := now.tm_year, tm_wday := 0, tm_yday := 0, tm_isdst := 0 } := by
  have h : parse_fields "0 30 14 * * *" = { tm_min := 30, tm_hour := 14 } := by decide
  simp only [parse_cron, h]

/-- C9: a `*` that directly follows a run of digits is not counted. In `1*2`
the parser stores 2 in the minute, the second field, and leaves the hour at
zero, where the k-th token rule puts it in the hour; in `30*14` it stores 14 in
the minute likewise. -/
theorem parse_fields_star_after_digits :
    parse_fields "1*2" = { tm_sec := 1, tm_min := 2, tm_hour := 0 } ∧
      spec_fields "1*2" = { tm_sec := 1, tm_min := 0, tm_hour := 2 } ∧
      parse_fields "30*14" = { tm_sec := 30, tm_min := 14, tm_hour := 0 } ∧
      spec_fields "30*14" = { tm_sec := 30, tm_min := 0, tm_hour := 14 } := by
  decide

/-! ### Lemmas on the dispatch loop -/

/-- While `should_run` reads `false`, a worker at the gate stays there and calls
nothing. -/
theorem run_gate_paused (loop : Bool) (vs : List View) (h : ∀ v ∈ vs, v.should_run = false) :
    run loop vs .gate = (.gate, 0) := by
  induction vs with
  | nil => rfl
  | cons v vs ih =>
    have hv : v.should_run = false := h v (List.mem_cons_self _ _)
    have ih1 := ih (fun u hu => h u (List.mem_cons_of_mem _ hu))
    simp [run, step, hv, ih1]

theorem step_fires (loop : Bool) (v : View) (pc : Pc) (h : (step loop v pc).2 = true) :
    pc = .gate ∧ v.should_run = true := by
  cases pc with
  | sleeping => simp [step] at h
  | checking =>
    simp only [step] at h
    split_ifs at h
  | gate =>
    simp only [step] at h
    split_ifs at h with hr
    exact ⟨rfl, hr⟩
  | invoked =>
    simp only [step] at h
    split_ifs at h
  | exited => simp [step] at h

theorem run_no_call_of_not_should_run (loop : Bool) (vs : List View) (pc : Pc)
    (h : ∀ v ∈ vs, v.should_run = false) : (run loop vs pc).2 = 0 := by
  induction vs generalizing pc with
  | nil => rfl
  | cons v vs ih =>
    have hv : v.should_run = false := h v (List.mem_cons_self _ _)
    have hf : (step loop v pc).2 = false := by
      cases hs : (step loop v pc).2 with
      | false => rfl
      | true =>
        have := (step_fires loop v pc hs).2
        rw [hv] at this
        cases this
    simp [run, hf, ih _ (fun u hu => h u (List.mem_cons_of_mem _ hu))]

/-- The view of a registered job carries the flags of its registry entry. -/
theorem view_of_some (jobs : Jobs) (job_name : String) (v : View)
    (h : view_of jobs job_name = some v) :
    ∃ job, map_at jobs job_name = some job ∧ v.contains = true ∧
      v.should_run = job.should_run ∧ v.should_loop = job.should_loop := by
  unfold view_of at h
  cases hj : map_at jobs job_name with
  | none => simp [hj] at h
  | some job =>
    simp only [hj, Option.map_some', Option.some.injEq] at h
    exact ⟨job, rfl, by rw [← h], by rw [← h], by rw [← h]⟩

/-! ### Claims on the dispatch loop -/

/-- C7: a step of the worker calls the user function only if `should_run` reads
`true` in that step, and for a registered job that is the flag of its registry
entry; over any stretch of steps in which the flag reads `false` the worker
makes no call, and a worker that wakes with its job registered and the flag
`false` waits at the gate. -/
theorem invoke_only_if_should_run (loop : Bool) (v v1 : View) (pc : Pc) (vs : List View)
    (jobs : Jobs) (job_name : String) :
    ((step loop v pc).2 = true → v.should_run = true) ∧
      (view_of jobs job_name = some v → (step loop v pc).2 = true →
        ∃ job, map_at jobs job_name = some job ∧ job.should_run = true) ∧
      ((∀ u ∈ vs, u.should_run = false) → (run loop vs pc).2 = 0) ∧
      (v1.contains = true → (∀ u ∈ vs, u.should_run = false) →
        run loop (v1 :: vs) .checking = (.gate, 0)) := by
  refine ⟨fun h => (step_fires loop v pc h).2, ?_, run_no_call_of_not_should_run loop vs pc, ?_⟩
  · intro hv h
    obtain ⟨job, hj, _, hr, _⟩ := view_of_some jobs job_name v hv
    exact ⟨job, hj, by rw [← hr]; exact (step_fires loop v pc h).2⟩
  · intro h1 hvs
    simp [run, step, h1, run_gate_paused loop vs hvs]

/-- Witness of C7: a step at the gate that calls the function of the registered
job `A`, and a worker that wakes to a paused job and yields twice. -/
theorem invoke_only_if_should_run_witness :
    (step true ⟨true, true, false⟩ .gate).2 = true ∧
      (∃ job, map_at jobs_registered "A" = some job ∧ job.should_run = true) ∧
      run true [⟨true, false, true⟩, ⟨true, false, true⟩, ⟨true, false, true⟩] .checking
        = (.gate, 0) :=
  ⟨rfl,
    (invoke_only_if_should_run true ⟨true, true, false⟩ ⟨true, false, true⟩ .gate []
      jobs_registered "A").2.1 (by decide) rfl,
    (invoke_only_if_should_run true ⟨true, true, false⟩ ⟨true, false, true⟩ .gate
      [⟨true, false, true⟩, ⟨true, false, true⟩] jobs_registered "A").2.2.2 rfl (by decide)⟩

/-- While the job is registered, a step against the registry is the step on
the flags of its entry. -/
theorem worker_step_registered (loop : Bool) (job_name : String) (jobs : Jobs) (pc : Pc)
    (v : View) (h : view_of jobs job_name = some v) :
    worker_step loop job_name jobs pc = .returned (step loop v pc) := by
  simp [worker_step, h]

/-- The step at the gate does not depend on what `contains` would return. -/
theorem gate_step_ignores_contains (loop : Bool) (c1 c2 r l : Bool) :
    step loop ⟨c1, r, l⟩ .gate = step loop ⟨c2, r, l⟩ .gate := rfl

/-- C10: the worker does not test membership again after the pause. With the
job `A` registered and paused, the worker wakes, finds `A` registered and
yields at the gate. When `cancel("A")` then erases the entry, the next step of
the worker does not exit: it reads `should_run` through the reference to the
erased entry, which is undefined. Membership is tested only at wake, where a
worker that finds the name absent exits without a call. -/
theorem paused_worker_after_cancel_undefined :
    worker_run true "A" [jobs_paused, jobs_paused, jobs_paused] .sleeping = .returned (.gate, 0) ∧
      cancel jobs_paused "A" = (.returned (), []) ∧
      worker_run true "A" [jobs_paused, jobs_paused, jobs_paused, (cancel jobs_paused "A").2]
        .sleeping = .undefined ∧
      worker_run true "A" [jobs_paused, jobs_paused, jobs_paused, (cancel jobs_paused "A").2]
        .sleeping ≠ .returned (.exited, 0) ∧
      worker_run true "A" [[], []] .sleeping = .returned (.exited, 0) := by
  decide

end scheduler
